import Mathlib

/-!
Verification development for the giraffe note-management engine:
a shallow embedding of `src/data/filter.rs` and `src/data/note_statistics.rs`
(query/filter engine and environment-statistics engine), together with
theorems settling the specification claims about them.

Machine integers: the Rust code counts with `usize` values that are bounded by
the sizes of in-memory lists, so they are embedded as `Nat`; fuzzy match scores
(`i64`) are embedded as `Int`.  The external fuzzy matcher
(`fuzzy_matcher::skim::SkimMatcherV2`, a library collaborator per §6 of the
spec) is embedded as an explicit function parameter
`matcher : String → String → Option Int`, applied as
`matcher choice pattern` exactly where the code calls
`matcher.fuzzy_match(&note.name, &title)`.
-/

namespace Giraffe

/-- Modelled from the spec: the `Note` record of §3.  The file `note.rs`
defining `data::Note` is not among the sources under review; the fields follow
§3 (`name`, `tags`, `links`, `words`, `characters`).  The canonical identifier
of a note is carried as its key in the index map, which is the only way the
engine sources under review consume it. -/
structure Note where
  name : String
  tags : List String
  links : List String
  words : Nat
  characters : Nat
deriving Repr, DecidableEq, Inhabited

/-- A `NoteIndex` (§3): mapping id → Note, embedded as an association list.
The Rust `HashMap` guarantees key uniqueness; theorems that depend on it take
a `Nodup` hypothesis on the key list. -/
abbrev NoteIndex := List (String × Note)

/-- Auxiliary word splitter: accumulates the current (reversed) word and emits
maximal nonempty runs of non-whitespace characters, mirroring Rust
`str::split_whitespace` as used in `Filter::new`. -/
def splitWhitespaceAux : List Char → List Char → List String
  | [], acc => if acc.isEmpty then [] else [String.mk acc.reverse]
  | c :: cs, acc =>
    if c.isWhitespace then
      if acc.isEmpty then splitWhitespaceAux cs []
      else String.mk acc.reverse :: splitWhitespaceAux cs []
    else splitWhitespaceAux cs (c :: acc)

/-- Rust `str::split_whitespace`: the whitespace-separated words of `s`. -/
def splitWhitespace (s : String) : List String :=
  splitWhitespaceAux s.data []

/-- Rust `str::starts_with`. -/
def startsWithStr (p s : String) : Bool :=
  p.data.isPrefixOf s.data

/-- Rust `str::trim_start_matches("!")`: removes every leading `'!'`. -/
def trimStartBang (s : String) : String :=
  String.mk (s.data.dropWhile (fun c => c == '!'))

/-- Rust `str::trim_start_matches(">")`: removes every leading `'>'`. -/
def trimStartGt (s : String) : String :=
  String.mk (s.data.dropWhile (fun c => c == '>'))

/-- Auxiliary for `trim_start_matches("!>")`: repeatedly removes a leading
`"!>"` occurrence. -/
def trimStartBangGtAux : List Char → List Char
  | '!' :: '>' :: cs => trimStartBangGtAux cs
  | cs => cs

/-- Rust `str::trim_start_matches("!>")`. -/
def trimStartBangGt (s : String) : String :=
  String.mk (trimStartBangGtAux s.data)

/-- Modelled from the spec: the external name→id resolver of §6
(`data::name_to_id` lives in `src/data/mod.rs`, which is not among the sources
under review).  §6 requires a deterministic total map from display names to
canonical ids, and the §8 scenario resolves `Manifold` to `manifold`, so the
resolver is modelled as character-wise lowercasing. -/
def nameToId (name : String) : String :=
  String.mk (name.data.map Char.toLower)

/-- The `Filter` struct of `src/data/filter.rs`: ANY/ALL mode flag, tag
predicates (tag text, wanted), link predicates (target id, wanted) and the
free-text title query. -/
structure Filter where
  any : Bool
  tags : List (String × Bool)
  links : List (String × Bool)
  title : String
deriving Repr, DecidableEq, Inhabited

/-- One token-classification step of `Filter::new` (filter.rs lines 22-47):
the accumulator is `(tags, links, title)` and each word is dispatched on its
prefix, in the source's priority order. -/
def filterStep (acc : List (String × Bool) × List (String × Bool) × String)
    (word : String) : List (String × Bool) × List (String × Bool) × String :=
  if startsWithStr "!#" word then
    (acc.1 ++ [(trimStartBang word, false)], acc.2.1, acc.2.2)
  else if startsWithStr "#" word then
    (acc.1 ++ [(word, true)], acc.2.1, acc.2.2)
  else if startsWithStr "!>" word then
    (acc.1, acc.2.1 ++ [(nameToId (trimStartBangGt word), false)], acc.2.2)
  else if startsWithStr ">" word then
    (acc.1, acc.2.1 ++ [(nameToId (trimStartGt word), true)], acc.2.2)
  else
    (acc.1, acc.2.1, acc.2.2 ++ word)

/-- `Filter::new` of `src/data/filter.rs`: tokenize on whitespace and classify
every token by prefix. -/
def Filter.new (filterString : String) (any : Bool) : Filter :=
  let acc := (splitWhitespace filterString).foldl filterStep ([], [], "")
  { any := any, tags := acc.1, links := acc.2.1, title := acc.2.2 }

/-- The subtag list built inside `Filter::apply` (filter.rs lines 69-75): for
a note tag, the prefix ending before each occurrence of `'/'`, followed by the
whole tag. -/
def slashPrefixes (tag : String) : List String :=
  ((List.range tag.data.length).filterMap (fun i =>
      if tag.data.get? i = some '/' then some (String.mk (tag.data.take i)) else none))
    ++ [tag]

/-- The satisfaction test of one tag predicate in `Filter::apply`: some note
tag has the predicate's tag among its slash-prefixes (or equals it). -/
def tagConditionHolds (tag : String) (noteTags : List String) : Bool :=
  noteTags.any (fun t => (slashPrefixes t).contains tag)

/-- Whether a tag predicate `(tag, included)` meets its expectation on a
note's tags: the condition holds iff inclusion was wanted. -/
def tagExpectationMet (tag : String) (included : Bool) (noteTags : List String) : Bool :=
  tagConditionHolds tag noteTags == included

/-- Whether a link predicate `(link, included)` meets its expectation on a
note's links (filter.rs line 100). -/
def linkExpectationMet (link : String) (included : Bool) (noteLinks : List String) : Bool :=
  noteLinks.contains link == included

/-- `Filter::apply` of `src/data/filter.rs`: evaluate every tag and link
predicate (the loops accumulating `any`/`all` are the disjunction/conjunction
of the per-predicate expectation results), gate on the ANY/ALL mode unless
both predicate lists are empty, then return the fuzzy match score of the
title query against the note name. -/
def Filter.apply (matcher : String → String → Option Int) (f : Filter)
    (note : Note) : Option Int :=
  let results :=
    f.tags.map (fun pr => tagExpectationMet pr.1 pr.2 note.tags)
      ++ f.links.map (fun pr => linkExpectationMet pr.1 pr.2 note.links)
  let anyTrue := results.any (fun b => b)
  let allTrue := results.all (fun b => b)
  if !(f.tags.isEmpty && f.links.isEmpty)
      && ((!f.any && !allTrue) || (f.any && !anyTrue)) then
    none
  else
    matcher note.name f.title

/-- `NoteEnvStatistics` of `src/data/note_statistics.rs`: per-note statistics
relative to an environment. -/
structure NoteEnvStatistics where
  id : String
  match_score : Int
  inlinks_global : Nat
  inlinks_local : Nat
  outlinks_local : Nat
  outlinks_global : Nat
  broken_links : Nat
deriving Repr, DecidableEq, Inhabited

/-- `NoteEnvStatistics::new_empty`: only id and match score filled in. -/
def NoteEnvStatistics.new_empty (id : String) (match_score : Int) : NoteEnvStatistics :=
  { id := id, match_score := match_score, inlinks_global := 0, inlinks_local := 0,
    outlinks_local := 0, outlinks_global := 0, broken_links := 0 }

/-- `EnvironmentStats` of `src/data/note_statistics.rs`: aggregate statistics
of an environment. -/
structure EnvironmentStats where
  word_count_total : Nat
  char_count_total : Nat
  note_count_total : Nat
  tag_count_total : Nat
  local_local_links : Nat
  local_global_links : Nat
  global_local_links : Nat
  filtered_stats : List NoteEnvStatistics
  broken_links : Nat
deriving Repr, DecidableEq, Inhabited

/-- The `Filter` struct defined at the bottom of `src/data/note_statistics.rs`
(named `StatsFilter` here because the file already embeds the `Filter` of
`filter.rs`): a second, competing filter shape with an ALL flag, a list of
positive tag texts, and a title query — no link predicates and no
wanted/unwanted marks. -/
structure StatsFilter where
  all_tags : Bool
  tags : List String
  title : String
deriving Repr, DecidableEq, Inhabited

/-- The environment map built by `EnvironmentStats::new_with_filters`:
id → (statistics, note), embedded as an association list. -/
abbrev EnvList := List (String × (NoteEnvStatistics × Note))

/-- The membership test inside `EnvironmentStats::new_with_filters`
(note_statistics.rs lines 75-99): `any_tag` starts as `tags.is_empty()` and
becomes true on any exact tag containment, `all_tags` starts true and drops on
any miss; gate on the `all_tags` flag, then fuzzy-match the title. -/
def membershipScore (matcher : String → String → Option Int) (f : StatsFilter)
    (note : Note) : Option Int :=
  let anyTag := f.tags.isEmpty || f.tags.any (fun t => note.tags.contains t)
  let allTags := f.tags.all (fun t => note.tags.contains t)
  if !(f.all_tags && allTags || (!f.all_tags && anyTag)) then none
  else matcher note.name f.title

/-- Pass 1 of `EnvironmentStats::new_with_filters`: filter the index down to
the notes with a membership score, pairing each with fresh statistics. -/
def filterIndex (matcher : String → String → Option Int) (f : StatsFilter)
    (index : NoteIndex) : EnvList :=
  index.filterMap (fun p =>
    (membershipScore matcher f p.2).map (fun score =>
      (p.1, (NoteEnvStatistics.new_empty p.1 score, p.2))))

/-- The key list of an environment map. -/
def keysOf (env : EnvList) : List String := env.map (fun e => e.1)

/-- The key list of an index. -/
def indexKeys (index : NoteIndex) : List String := index.map (fun p => p.1)

/-- The inlink bump an entry receives from `n` incoming links of one source:
`n` is added to the global count and, when the source is in the environment,
to the local count as well. -/
def addInlinks (localSource : Bool) (n : Nat) (s : NoteEnvStatistics) : NoteEnvStatistics :=
  { s with
    inlinks_global := s.inlinks_global + n,
    inlinks_local := s.inlinks_local + (if localSource then n else 0) }

/-- The `get_mut(link)` update in pass 2 (note_statistics.rs lines 113-119):
bump the target's global inlink count by one, and its local inlink count when
the source is itself in the environment. -/
def bumpInlinks (localSource : Bool) (link : String) (env : EnvList) : EnvList :=
  env.map (fun e =>
    if e.1 = link then (e.1, (addInlinks localSource 1 e.2.1, e.2.2)) else e)

/-- One iteration of the inner link loop of pass 2 (note_statistics.rs lines
112-129); the accumulator is `(environment, local_targets, global_targets)`. -/
def linkStep (index : NoteIndex) (localSource : Bool)
    (acc : EnvList × Nat × Nat) (link : String) : EnvList × Nat × Nat :=
  if (keysOf acc.1).contains link then
    (bumpInlinks localSource link acc.1, acc.2.1 + 1, acc.2.2 + 1)
  else if (indexKeys index).contains link then
    (acc.1, acc.2.1, acc.2.2 + 1)
  else acc

/-- The source update closing one iteration of pass 2 (note_statistics.rs
lines 131-135): add the found targets to the source's outlink counters and
record its broken links. -/
def setOutlinks (s : NoteEnvStatistics) (localTargets globalTargets broken : Nat) :
    NoteEnvStatistics :=
  { s with
    outlinks_local := s.outlinks_local + localTargets,
    outlinks_global := s.outlinks_global + globalTargets,
    broken_links := broken }

/-- Processing of one source note in pass 2 of
`EnvironmentStats::new_with_filters` (note_statistics.rs lines 103-136). -/
def processNote (index : NoteIndex) (env : EnvList) (id : String) (note : Note) : EnvList :=
  let localSource := (keysOf env).contains id
  let acc := note.links.foldl (linkStep index localSource) (env, 0, 0)
  acc.1.map (fun e =>
    if e.1 = id then
      (e.1, (setOutlinks e.2.1 acc.2.1 acc.2.2 (note.links.length - acc.2.2), e.2.2))
    else e)

/-- Pass 2 of `EnvironmentStats::new_with_filters`: iterate over the whole
unfiltered index, counting links. -/
def pass2 (index : NoteIndex) (env : EnvList) : EnvList :=
  index.foldl (fun env p => processNote index env p.1 p.2) env

/-- Stable insertion of a statistics entry into a list sorted by ascending
match score: the entry moves past every strictly smaller score and lands
after earlier entries with an equal score. -/
def insertByScore (x : NoteEnvStatistics) :
    List NoteEnvStatistics → List NoteEnvStatistics
  | [] => [x]
  | y :: ys =>
    if x.match_score < y.match_score then x :: y :: ys else y :: insertByScore x ys

/-- The stable ascending sort by match score performed by
`fs.sort_by_cached_key(|env_stats| env_stats.match_score)` (a stable sort;
embedded as stable insertion sort, which computes the same list). -/
def sortByScore : List NoteEnvStatistics → List NoteEnvStatistics
  | [] => []
  | x :: xs => insertByScore x (sortByScore xs)

/-- `EnvironmentStats::new_with_filters` of `src/data/note_statistics.rs`:
membership pass, link-counting pass, then aggregation; `filtered_stats` is
sorted by match score ascending (stably) and reversed. -/
def EnvironmentStats.new_with_filters (matcher : String → String → Option Int)
    (index : NoteIndex) (filter : StatsFilter) : EnvironmentStats :=
  let filtered := pass2 index (filterIndex matcher filter index)
  { word_count_total := (filtered.map (fun e => e.2.2.words)).sum,
    char_count_total := (filtered.map (fun e => e.2.2.characters)).sum,
    note_count_total := filtered.length,
    tag_count_total := ((filtered.map (fun e => e.2.2.tags)).flatten).dedup.length,
    local_local_links := (filtered.map (fun e => e.2.1.outlinks_local)).sum,
    local_global_links := (filtered.map (fun e => e.2.1.outlinks_global)).sum,
    global_local_links := (filtered.map (fun e => e.2.1.inlinks_global)).sum,
    broken_links := (filtered.map (fun e => e.2.1.broken_links)).sum,
    filtered_stats := (sortByScore (filtered.map (fun e => e.2.1))).reverse }

/-! ### Helper notions used by the claim statements -/

/-- Concatenation of a list of strings with no separator. -/
def joinAll : List String → String
  | [] => ""
  | w :: ws => w ++ joinAll ws

/-- A query token that none of the four prefix rules of `Filter::new`
captures, so that it is appended to the title query. -/
def isPlainWord (w : String) : Bool :=
  !(startsWithStr "!#" w || startsWithStr "#" w
      || startsWithStr "!>" w || startsWithStr ">" w)

/-- Every tag and link predicate of a filter meets its expectation on the
given note. -/
def allPredicatesMet (f : Filter) (note : Note) : Prop :=
  (∀ pr ∈ f.tags, tagExpectationMet pr.1 pr.2 note.tags = true) ∧
  (∀ pr ∈ f.links, linkExpectationMet pr.1 pr.2 note.links = true)

/-- At least one tag or link predicate of a filter meets its expectation on
the given note. -/
def anyPredicateMet (f : Filter) (note : Note) : Prop :=
  (∃ pr ∈ f.tags, tagExpectationMet pr.1 pr.2 note.tags = true) ∨
  (∃ pr ∈ f.links, linkExpectationMet pr.1 pr.2 note.links = true)

instance (f : Filter) (note : Note) : Decidable (allPredicatesMet f note) := by
  unfold allPredicatesMet; infer_instance

instance (f : Filter) (note : Note) : Decidable (anyPredicateMet f note) := by
  unfold anyPredicateMet; infer_instance

/-! ### Lemmas about `Filter::new` -/

theorem foldl_filterStep_title (ws : List String)
    (tags links : List (String × Bool)) (title : String) :
    (ws.foldl filterStep (tags, links, title)).2.2
      = title ++ joinAll (ws.filter isPlainWord) := by
  induction ws generalizing tags links title with
  | nil => simp [joinAll]
  | cons w ws ih =>
    simp only [List.foldl_cons, List.filter_cons, filterStep, isPlainWord]
    by_cases h1 : startsWithStr "!#" w = true
    · simp [h1, ih]
    · by_cases h2 : startsWithStr "#" w = true
      · simp [h1, h2, ih]
      · by_cases h3 : startsWithStr "!>" w = true
        · simp [h1, h2, h3, ih]
        · by_cases h4 : startsWithStr ">" w = true
          · simp [h1, h2, h3, h4, ih]
          · simp [h1, h2, h3, h4, ih, joinAll, String.append_assoc]

/-! ### Counting helpers for the link-accounting pass -/

/-- Number of occurrences of a key among a note's outgoing links. -/
def cntEq (ls : List String) (k : String) : Nat :=
  (ls.filter (fun l => l == k)).length

/-- Number of outgoing links whose target is in the key list `keys`. -/
def cntMem (ls keys : List String) : Nat :=
  (ls.filter (fun l => keys.contains l)).length

/-- Number of outgoing links whose target is in `ekeys` or in `ikeys` — the
links counted by the `global_targets` counter of pass 2. -/
def cntMemOr (ls ekeys ikeys : List String) : Nat :=
  (ls.filter (fun l => ekeys.contains l || ikeys.contains l)).length

theorem addInlinks_zero (lsrc : Bool) (s : NoteEnvStatistics) :
    addInlinks lsrc 0 s = s := by
  cases lsrc <;> simp [addInlinks]

theorem addInlinks_addInlinks (lsrc : Bool) (m n : Nat) (s : NoteEnvStatistics) :
    addInlinks lsrc m (addInlinks lsrc n s) = addInlinks lsrc (n + m) s := by
  cases lsrc <;> simp [addInlinks, Nat.add_assoc]

theorem keysOf_update (env : EnvList) (k : String)
    (g : String × (NoteEnvStatistics × Note) → NoteEnvStatistics × Note) :
    keysOf (env.map (fun e => if e.1 = k then (e.1, g e) else e)) = keysOf env := by
  unfold keysOf
  rw [List.map_map]
  refine List.map_congr_left fun e _ => ?_
  by_cases h : e.1 = k <;> simp [h]

theorem keysOf_bumpInlinks (lsrc : Bool) (link : String) (env : EnvList) :
    keysOf (bumpInlinks lsrc link env) = keysOf env :=
  keysOf_update env link _

theorem cntEq_cons (l : String) (ls : List String) (k : String) :
    cntEq (l :: ls) k = (if l = k then 1 else 0) + cntEq ls k := by
  by_cases h : l = k <;> simp [cntEq, List.filter_cons, h, Nat.add_comm]

theorem cntMem_cons (l : String) (ls keys : List String) :
    cntMem (l :: ls) keys = (if l ∈ keys then 1 else 0) + cntMem ls keys := by
  by_cases h : l ∈ keys <;> simp [cntMem, List.filter_cons, h, Nat.add_comm]

theorem cntMemOr_cons (l : String) (ls ekeys ikeys : List String) :
    cntMemOr (l :: ls) ekeys ikeys =
      (if l ∈ ekeys ∨ l ∈ ikeys then 1 else 0) + cntMemOr ls ekeys ikeys := by
  by_cases h : l ∈ ekeys ∨ l ∈ ikeys <;>
    simp [cntMemOr, List.filter_cons, h, Nat.add_comm]

/-- Characterization of the inner link loop of pass 2: each environment entry
receives one global (and, for a local source, one local) inlink per link equal
to its key, `local_targets` counts the links landing in the environment, and
`global_targets` counts the links landing in the environment or anywhere in
the index. -/
theorem foldl_linkStep (index : NoteIndex) (lsrc : Bool) (ls : List String)
    (env : EnvList) (lt gt : Nat) :
    ls.foldl (linkStep index lsrc) (env, lt, gt) =
      (env.map (fun e => (e.1, (addInlinks lsrc (cntEq ls e.1) e.2.1, e.2.2))),
       lt + cntMem ls (keysOf env),
       gt + cntMemOr ls (keysOf env) (indexKeys index)) := by
  induction ls generalizing env lt gt with
  | nil =>
    simp [cntEq, cntMem, cntMemOr, addInlinks_zero]
  | cons l ls ih =>
    rw [List.foldl_cons]
    by_cases h1 : l ∈ keysOf env
    · have hstep : linkStep index lsrc (env, lt, gt) l
          = (bumpInlinks lsrc l env, lt + 1, gt + 1) := by
        simp [linkStep, h1]
      rw [hstep, ih, keysOf_bumpInlinks]
      refine congrArg₂ Prod.mk ?_ (congrArg₂ Prod.mk ?_ ?_)
      · unfold bumpInlinks
        rw [List.map_map]
        refine List.map_congr_left fun e he => ?_
        show (fun e => ((e : String × NoteEnvStatistics × Note).1,
            addInlinks lsrc (cntEq ls e.1) e.2.1, e.2.2))
            (if e.1 = l then (e.1, (addInlinks lsrc 1 e.2.1, e.2.2)) else e)
          = (e.1, addInlinks lsrc (cntEq (l :: ls) e.1) e.2.1, e.2.2)
        by_cases h2 : e.1 = l
        · rw [if_pos h2]
          show (e.1, addInlinks lsrc (cntEq ls e.1) (addInlinks lsrc 1 e.2.1), e.2.2) = _
          rw [addInlinks_addInlinks, cntEq_cons, if_pos h2.symm]
        · rw [if_neg h2]
          show (e.1, addInlinks lsrc (cntEq ls e.1) e.2.1, e.2.2) = _
          rw [cntEq_cons, if_neg (fun hlk => h2 hlk.symm), Nat.zero_add]
      · rw [cntMem_cons, if_pos h1]
        omega
      · rw [cntMemOr_cons, if_pos (Or.inl h1)]
        omega
    · have hmem : ∀ e ∈ env, ¬ l = e.1 := by
        intro e he hlk
        refine h1 ?_
        rw [hlk]
        exact List.mem_map_of_mem (fun e => e.1) he
      by_cases h2 : l ∈ indexKeys index
      · have hstep : linkStep index lsrc (env, lt, gt) l = (env, lt, gt + 1) := by
          simp [linkStep, h1, h2]
        rw [hstep, ih]
        refine congrArg₂ Prod.mk ?_ (congrArg₂ Prod.mk ?_ ?_)
        · refine List.map_congr_left fun e he => ?_
          rw [cntEq_cons, if_neg (hmem e he), Nat.zero_add]
        · rw [cntMem_cons, if_neg h1]
          omega
        · rw [cntMemOr_cons, if_pos (Or.inr h2)]
          omega
      · have hstep : linkStep index lsrc (env, lt, gt) l = (env, lt, gt) := by
          simp [linkStep, h1, h2]
        rw [hstep, ih]
        refine congrArg₂ Prod.mk ?_ (congrArg₂ Prod.mk ?_ ?_)
        · refine List.map_congr_left fun e he => ?_
          rw [cntEq_cons, if_neg (hmem e he), Nat.zero_add]
        · rw [cntMem_cons, if_neg h1]
          omega
        · rw [cntMemOr_cons, if_neg (not_or.mpr ⟨h1, h2⟩)]
          omega

/-- Characterization of processing one source note in pass 2: every entry
receives its inlink bumps, and the entry keyed by the source additionally
receives the outlink counters and has its broken-link count set. -/
theorem processNote_eq (index : NoteIndex) (env : EnvList) (id : String) (note : Note) :
    processNote index env id note =
      env.map (fun e =>
        if e.1 = id then
          (e.1, (setOutlinks
              (addInlinks ((keysOf env).contains id) (cntEq note.links e.1) e.2.1)
              (cntMem note.links (keysOf env))
              (cntMemOr note.links (keysOf env) (indexKeys index))
              (note.links.length - cntMemOr note.links (keysOf env) (indexKeys index)),
            e.2.2))
        else
          (e.1, (addInlinks ((keysOf env).contains id) (cntEq note.links e.1) e.2.1,
            e.2.2))) := by
  simp only [processNote]
  rw [foldl_linkStep]
  simp only [Nat.zero_add]
  rw [List.map_map]
  refine List.map_congr_left fun e he => ?_
  simp only [Function.comp_apply]

theorem keysOf_processNote (index : NoteIndex) (env : EnvList) (id : String) (note : Note) :
    keysOf (processNote index env id note) = keysOf env := by
  rw [processNote_eq]
  unfold keysOf
  rw [List.map_map]
  refine List.map_congr_left fun e _ => ?_
  by_cases h : e.1 = id <;> simp [h]

theorem lookup_eq_none_of_not_mem {L : NoteIndex} {k : String}
    (h : k ∉ indexKeys L) : L.lookup k = none := by
  induction L with
  | nil => rfl
  | cons p L ih =>
    obtain ⟨q, v⟩ := p
    have h1 : ¬ k = q := fun he => h (by simp [indexKeys, he])
    have h2 : k ∉ indexKeys L := fun hm => h (by simp [indexKeys] at hm ⊢; exact Or.inr hm)
    have hb : (k == q) = false := by simpa using h1
    rw [List.lookup_cons, hb]
    exact ih h2

theorem lookup_eq_some_of_mem_nodup {L : NoteIndex} {k : String} {v : Note}
    (hnd : (indexKeys L).Nodup) (hm : (k, v) ∈ L) : L.lookup k = some v := by
  induction L with
  | nil => cases hm
  | cons p L ih =>
    obtain ⟨q, w⟩ := p
    have hnds : q ∉ indexKeys L ∧ (indexKeys L).Nodup := by
      simpa [indexKeys] using hnd
    rw [List.lookup_cons]
    rcases List.mem_cons.mp hm with heq | hm'
    · injection heq with e1 e2
      subst e1; subst e2
      simp
    · have hk : ¬ k = q := by
        intro he
        subst he
        exact hnds.1 (by simpa [indexKeys] using List.mem_map_of_mem (fun p => p.1) hm')
      have hb : (k == q) = false := by simpa using hk
      rw [hb]
      exact ih hnds.2 hm'

/-- The cumulative effect of pass 2 on the environment entry with key `k` and
initial statistics `s`, given the iterated index `L`, the environment key set
`K` and the full index key set `ikeys`: inlinks summed over all sources,
outlinks and broken links from the unique index entry keyed `k`. -/
def accumStats (L : NoteIndex) (K ikeys : List String) (k : String)
    (s : NoteEnvStatistics) : NoteEnvStatistics :=
  let s1 : NoteEnvStatistics :=
    { s with
      inlinks_global := s.inlinks_global + (L.map (fun p => cntEq p.2.links k)).sum,
      inlinks_local := s.inlinks_local +
        (L.map (fun p => if K.contains p.1 then cntEq p.2.links k else 0)).sum }
  match L.lookup k with
  | some n =>
    setOutlinks s1 (cntMem n.links K) (cntMemOr n.links K ikeys)
      (n.links.length - cntMemOr n.links K ikeys)
  | none => s1

/-- Characterization of the whole of pass 2 (for an index with no duplicate
ids): folding `processNote` over `L` rewrites every entry by `accumStats`. -/
theorem foldl_processNote_eq (index : NoteIndex) (L : NoteIndex) (env : EnvList)
    (hnd : (indexKeys L).Nodup) :
    L.foldl (fun env p => processNote index env p.1 p.2) env =
      env.map (fun e =>
        (e.1, (accumStats L (keysOf env) (indexKeys index) e.1 e.2.1, e.2.2))) := by
  induction L generalizing env with
  | nil =>
    simp [accumStats]
  | cons p L ih =>
    obtain ⟨k, n⟩ := p
    have hnds : k ∉ indexKeys L ∧ (indexKeys L).Nodup := by
      simpa [indexKeys] using hnd
    rw [List.foldl_cons, ih _ hnds.2, keysOf_processNote, processNote_eq, List.map_map]
    refine List.map_congr_left fun e he => ?_
    simp only [Function.comp_apply]
    by_cases h : e.1 = k
    · rw [if_pos h]
      refine congrArg (fun x => (e.1, (x, e.2.2))) ?_
      simp only [accumStats, List.lookup_cons]
      rw [h, lookup_eq_none_of_not_mem hnds.1, beq_self_eq_true]
      by_cases hc : k ∈ keysOf env <;>
        simp [setOutlinks, addInlinks, hc, NoteEnvStatistics.mk.injEq] <;>
        omega
    · rw [if_neg h]
      refine congrArg (fun x => (e.1, (x, e.2.2))) ?_
      simp only [accumStats, List.lookup_cons]
      have hbeq : (e.1 == k) = false := by simpa using h
      rw [hbeq]
      cases hl : L.lookup e.1 <;>
        by_cases hc : k ∈ keysOf env <;>
          simp [setOutlinks, addInlinks, hc, NoteEnvStatistics.mk.injEq] <;>
          omega

/-- The environment key set produced by pass 1. -/
def envKeys (matcher : String → String → Option Int) (f : StatsFilter)
    (index : NoteIndex) : List String :=
  keysOf (filterIndex matcher f index)

theorem pass2_eq (matcher : String → String → Option Int) (f : StatsFilter)
    (index : NoteIndex) (hnd : (indexKeys index).Nodup) :
    pass2 index (filterIndex matcher f index) =
      (filterIndex matcher f index).map (fun e =>
        (e.1, (accumStats index (envKeys matcher f index) (indexKeys index) e.1 e.2.1,
          e.2.2))) :=
  foldl_processNote_eq index index (filterIndex matcher f index) hnd

theorem keysOf_filterIndex (matcher : String → String → Option Int) (f : StatsFilter)
    (index : NoteIndex) :
    keysOf (filterIndex matcher f index) =
      (index.filter (fun p => (membershipScore matcher f p.2).isSome)).map
        (fun p => p.1) := by
  induction index with
  | nil => rfl
  | cons p L ih =>
    cases hm : membershipScore matcher f p.2 <;>
      simp only [filterIndex, keysOf, List.filterMap_cons, List.filter_cons, hm,
        Option.map_none', Option.map_some', Option.isSome_none, Option.isSome_some,
        Bool.false_eq_true, if_false, if_true, List.map_cons] <;>
      simpa [filterIndex, keysOf] using ih

theorem envKeys_nodup (matcher : String → String → Option Int) (f : StatsFilter)
    (index : NoteIndex) (hnd : (indexKeys index).Nodup) :
    (envKeys matcher f index).Nodup := by
  rw [envKeys, keysOf_filterIndex]
  exact List.Nodup.sublist (List.Sublist.map _ (List.filter_sublist index)) hnd

theorem envKeys_subset (matcher : String → String → Option Int) (f : StatsFilter)
    (index : NoteIndex) :
    ∀ k ∈ envKeys matcher f index, k ∈ indexKeys index := by
  intro k hk
  rw [envKeys, keysOf_filterIndex] at hk
  obtain ⟨p, hp, rfl⟩ := List.mem_map.mp hk
  exact List.mem_map_of_mem _ (List.mem_of_mem_filter hp)

theorem mem_filterIndex {matcher : String → String → Option Int} {f : StatsFilter}
    {index : NoteIndex} {e : String × (NoteEnvStatistics × Note)} :
    e ∈ filterIndex matcher f index ↔
      ∃ p ∈ index, ∃ sc, membershipScore matcher f p.2 = some sc ∧
        e = (p.1, (NoteEnvStatistics.new_empty p.1 sc, p.2)) := by
  unfold filterIndex
  rw [List.mem_filterMap]
  constructor
  · rintro ⟨p, hp, hsome⟩
    cases hm : membershipScore matcher f p.2 with
    | none => rw [hm] at hsome; cases hsome
    | some sc =>
      rw [hm] at hsome
      exact ⟨p, hp, sc, hm, (Option.some.inj hsome).symm⟩
  · rintro ⟨p, hp, sc, hm, rfl⟩
    exact ⟨p, hp, by rw [hm]; rfl⟩

theorem filterIndex_entry {matcher : String → String → Option Int} {f : StatsFilter}
    {index : NoteIndex} {e : String × (NoteEnvStatistics × Note)}
    (he : e ∈ filterIndex matcher f index) (hnd : (indexKeys index).Nodup) :
    e.2.1 = NoteEnvStatistics.new_empty e.1 e.2.1.match_score ∧
    index.lookup e.1 = some e.2.2 := by
  obtain ⟨p, hp, sc, hm, rfl⟩ := mem_filterIndex.mp he
  exact ⟨rfl, lookup_eq_some_of_mem_nodup hnd hp⟩

theorem mem_envKeys_iff {matcher : String → String → Option Int} {f : StatsFilter}
    {index : NoteIndex} (hnd : (indexKeys index).Nodup)
    {p : String × Note} (hp : p ∈ index) :
    p.1 ∈ envKeys matcher f index ↔ (membershipScore matcher f p.2).isSome = true := by
  rw [envKeys, keysOf_filterIndex]
  constructor
  · intro h
    obtain ⟨q, hq, hq1⟩ := List.mem_map.mp h
    have hqp : q = p := List.inj_on_of_nodup_map hnd (List.mem_of_mem_filter hq) hp hq1
    subst hqp
    simpa using List.of_mem_filter hq
  · intro h
    exact List.mem_map_of_mem _ (List.mem_filter.mpr ⟨hp, h⟩)

theorem insertByScore_perm (x : NoteEnvStatistics) (l : List NoteEnvStatistics) :
    (insertByScore x l).Perm (x :: l) := by
  induction l with
  | nil => exact List.Perm.refl _
  | cons y ys ih =>
    unfold insertByScore
    by_cases h : x.match_score < y.match_score
    · rw [if_pos h]
    · rw [if_neg h]
      exact (ih.cons y).trans (List.Perm.swap x y ys)

theorem sortByScore_perm (l : List NoteEnvStatistics) : (sortByScore l).Perm l := by
  induction l with
  | nil => exact List.Perm.refl _
  | cons x xs ih => exact (insertByScore_perm x (sortByScore xs)).trans (ih.cons x)

theorem filtered_stats_perm (matcher : String → String → Option Int)
    (index : NoteIndex) (f : StatsFilter) :
    (EnvironmentStats.new_with_filters matcher index f).filtered_stats.Perm
      ((pass2 index (filterIndex matcher f index)).map (fun e => e.2.1)) := by
  simp only [EnvironmentStats.new_with_filters]
  exact (List.reverse_perm _).trans (sortByScore_perm _)

theorem accumStats_fields (L : NoteIndex) (K ik : List String) (k : String)
    (s : NoteEnvStatistics) :
    (accumStats L K ik k s).id = s.id ∧
    (accumStats L K ik k s).match_score = s.match_score ∧
    (accumStats L K ik k s).inlinks_global
      = s.inlinks_global + (L.map (fun p => cntEq p.2.links k)).sum ∧
    (accumStats L K ik k s).inlinks_local
      = s.inlinks_local
        + (L.map (fun p => if K.contains p.1 then cntEq p.2.links k else 0)).sum ∧
    (accumStats L K ik k s).outlinks_local
      = s.outlinks_local
        + (match L.lookup k with | some n => cntMem n.links K | none => 0) ∧
    (accumStats L K ik k s).outlinks_global
      = s.outlinks_global
        + (match L.lookup k with | some n => cntMemOr n.links K ik | none => 0) ∧
    (accumStats L K ik k s).broken_links
      = (match L.lookup k with
          | some n => n.links.length - cntMemOr n.links K ik
          | none => s.broken_links) := by
  unfold accumStats
  cases L.lookup k <;> simp [setOutlinks]

/-! ### Sum manipulation helpers -/

theorem sum_map_sum_comm {α β : Type} (L : List α) (M : List β) (f : α → β → Nat) :
    (L.map (fun a => (M.map (fun b => f a b)).sum)).sum
      = (M.map (fun b => (L.map (fun a => f a b)).sum)).sum := by
  induction L with
  | nil => simp
  | cons a L ih =>
    rw [List.map_cons, List.sum_cons, ih, ← List.sum_map_add]
    refine congrArg List.sum (List.map_congr_left fun b _ => ?_)
    rw [List.map_cons, List.sum_cons]

theorem sum_indicator_mem {K : List String} (hK : K.Nodup) (l : String) :
    (K.map (fun k => if l = k then 1 else 0)).sum = if l ∈ K then 1 else 0 := by
  induction K with
  | nil => simp
  | cons a K ih =>
    have hnds := List.nodup_cons.mp hK
    rw [List.map_cons, List.sum_cons, ih hnds.2]
    by_cases h : l = a
    · subst h
      have hz : (l ∈ K) = False := by simp [hnds.1]
      simp [hz]
    · simp [h, List.mem_cons]

theorem sum_cntEq_eq_cntMem (ls : List String) {K : List String} (hK : K.Nodup) :
    (K.map (fun k => cntEq ls k)).sum = cntMem ls K := by
  induction ls with
  | nil => simp [cntEq, cntMem]
  | cons l ls ih =>
    have h1 : (K.map (fun k => cntEq (l :: ls) k)).sum
        = (K.map (fun k => if l = k then 1 else 0)).sum
          + (K.map (fun k => cntEq ls k)).sum := by
      rw [← List.sum_map_add]
      refine congrArg List.sum (List.map_congr_left fun k _ => ?_)
      rw [cntEq_cons]
    rw [h1, sum_indicator_mem hK, ih, cntMem_cons]

theorem sum_map_filterIndex (matcher : String → String → Option Int) (f : StatsFilter)
    (index : NoteIndex) (g : String × (NoteEnvStatistics × Note) → Nat) :
    ((filterIndex matcher f index).map g).sum =
      (index.map (fun p => match membershipScore matcher f p.2 with
        | some sc => g (p.1, (NoteEnvStatistics.new_empty p.1 sc, p.2))
        | none => 0)).sum := by
  induction index with
  | nil => rfl
  | cons p L ih =>
    cases hm : membershipScore matcher f p.2 <;>
      simp only [filterIndex, List.filterMap_cons, hm, Option.map_none', Option.map_some',
        List.map_cons, List.sum_cons, Nat.zero_add] <;>
      rw [show (List.filterMap _ L : EnvList) = filterIndex matcher f L from rfl, ih]

/-- The double-counting exchange at the heart of the inlink/outlink balance:
summing, over the environment, the locally-sourced inlinks each entry receives
equals summing, over the environment, each entry's locally-targeted outlinks. -/
theorem sum_inlinks_exchange (matcher : String → String → Option Int) (f : StatsFilter)
    (index : NoteIndex) (hnd : (indexKeys index).Nodup) :
    ((filterIndex matcher f index).map (fun e =>
        (index.map (fun p =>
          if (envKeys matcher f index).contains p.1 then cntEq p.2.links e.1 else 0)).sum)).sum
      = ((filterIndex matcher f index).map
          (fun e => cntMem e.2.2.links (envKeys matcher f index))).sum := by
  have hKnd : (envKeys matcher f index).Nodup := envKeys_nodup matcher f index hnd
  rw [sum_map_sum_comm]
  have hswap : (index.map (fun p =>
      ((filterIndex matcher f index).map (fun e =>
        if (envKeys matcher f index).contains p.1 then cntEq p.2.links e.1 else 0)).sum)).sum
      = (index.map (fun p =>
          if (envKeys matcher f index).contains p.1
          then cntMem p.2.links (envKeys matcher f index) else 0)).sum := by
    refine congrArg List.sum (List.map_congr_left fun p _ => ?_)
    by_cases hc : (envKeys matcher f index).contains p.1
    · rw [if_pos hc]
      have hinner : ((filterIndex matcher f index).map
          (fun e => cntEq p.2.links e.1)).sum
          = ((envKeys matcher f index).map (fun k => cntEq p.2.links k)).sum := by
        rw [envKeys, keysOf, List.map_map]
        rfl
      rw [show ((filterIndex matcher f index).map (fun e =>
          if (envKeys matcher f index).contains p.1 then cntEq p.2.links e.1 else 0)).sum
          = ((filterIndex matcher f index).map (fun e => cntEq p.2.links e.1)).sum from by
        refine congrArg List.sum (List.map_congr_left fun e _ => ?_)
        rw [if_pos hc]]
      rw [hinner, sum_cntEq_eq_cntMem _ hKnd]
    · rw [if_neg hc]
      rw [show ((filterIndex matcher f index).map (fun e =>
          if (envKeys matcher f index).contains p.1 then cntEq p.2.links e.1 else 0)).sum
          = ((filterIndex matcher f index).map (fun _ => 0)).sum from by
        refine congrArg List.sum (List.map_congr_left fun e _ => ?_)
        rw [if_neg hc]]
      simp
  rw [hswap, sum_map_filterIndex]
  refine congrArg List.sum (List.map_congr_left fun p hp => ?_)
  cases hm : membershipScore matcher f p.2 with
  | none =>
    have : ¬ p.1 ∈ envKeys matcher f index := by
      rw [mem_envKeys_iff hnd hp, hm]
      simp
    simp [this]
  | some sc =>
    have : p.1 ∈ envKeys matcher f index := by
      rw [mem_envKeys_iff hnd hp, hm]
      rfl
    simp [this]

/-! ### Lemmas about hierarchical tag matching -/

theorem string_data_inj {a b : String} (h : a.data = b.data) : a = b := by
  cases a; cases b; exact congrArg String.mk h

theorem mk_data (s : String) : String.mk s.data = s := by
  cases s; rfl

/-- The slash-prefix list of `Filter::apply` contains `p` exactly when `p` is
the tag itself or a proper ancestor path of it (a prefix cut at a `/`). -/
theorem mem_slashPrefixes {p t : String} :
    p ∈ slashPrefixes t ↔ (∃ rest : String, t = p ++ "/" ++ rest) ∨ p = t := by
  unfold slashPrefixes
  rw [List.mem_append]
  simp only [List.mem_singleton, List.mem_filterMap, List.mem_range]
  constructor
  · rintro (⟨i, hi, hsome⟩ | heq)
    · left
      by_cases hslash : t.data.get? i = some '/'
      · rw [if_pos hslash] at hsome
        have hp : t.data.take i = p.data := congrArg String.data (Option.some.inj hsome)
        have hix : t.data[i] = '/' := by
          have h := hslash
          rw [List.get?_eq_getElem?, List.getElem?_eq_getElem hi] at h
          exact Option.some.inj h
        refine ⟨String.mk (t.data.drop (i + 1)), string_data_inj ?_⟩
        rw [String.data_append, String.data_append, List.append_assoc]
        have h2 : ("/" : String).data ++ (String.mk (t.data.drop (i + 1))).data
            = '/' :: t.data.drop (i + 1) := rfl
        rw [h2]
        conv_lhs => rw [← List.take_append_drop i t.data]
        rw [List.drop_eq_getElem_cons hi, hix, hp]
      · rw [if_neg hslash] at hsome
        exact absurd hsome (Option.noConfusion)
    · right; exact heq
  · rintro (⟨rest, hrest⟩ | heq)
    · left
      have hdata : t.data = p.data ++ '/' :: rest.data := by
        rw [hrest, String.data_append, String.data_append, List.append_assoc]
        rfl
      refine ⟨p.data.length, ?_, ?_⟩
      · rw [hdata]; simp
      · have hslash : t.data.get? p.data.length = some '/' := by
          rw [hdata, List.get?_eq_getElem?, List.getElem?_append_right (Nat.le_refl _)]
          simp
        rw [if_pos hslash, hdata, List.take_left, mk_data]
    · right; exact heq

/-- The satisfaction test of one tag predicate in `Filter::apply`: satisfied
iff some note tag equals the predicate's path or properly extends it below a
`/` boundary. -/
theorem tagConditionHolds_iff {tag : String} {noteTags : List String} :
    tagConditionHolds tag noteTags = true ↔
      ∃ t ∈ noteTags, t = tag ∨ ∃ rest : String, t = tag ++ "/" ++ rest := by
  unfold tagConditionHolds
  rw [List.any_eq_true]
  refine exists_congr fun t => and_congr_right fun _ => ?_
  have : (slashPrefixes t).contains tag = true ↔ tag ∈ slashPrefixes t := by
    simp
  rw [this, mem_slashPrefixes]
  constructor
  · rintro (⟨rest, hrest⟩ | heq)
    · exact Or.inr ⟨rest, hrest⟩
    · exact Or.inl heq.symm
  · rintro (heq | ⟨rest, hrest⟩)
    · exact Or.inr heq.symm
    · exact Or.inl ⟨rest, hrest⟩

/-! ### The aggregates of `new_with_filters` in closed form -/

theorem cntMem_le_cntMemOr (ls K I : List String) : cntMem ls K ≤ cntMemOr ls K I := by
  induction ls with
  | nil => simp [cntMem, cntMemOr]
  | cons l ls ih =>
    rw [cntMem_cons, cntMemOr_cons]
    by_cases h : l ∈ K
    · rw [if_pos h, if_pos (Or.inl h)]
      omega
    · rw [if_neg h]
      by_cases h2 : l ∈ I
      · rw [if_pos (Or.inr h2)]
        omega
      · rw [if_neg (not_or.mpr ⟨h, h2⟩)]
        omega

theorem cntMemOr_le_length (ls K I : List String) : cntMemOr ls K I ≤ ls.length :=
  List.length_filter_le _ ls

/-- When the environment keys sit inside the index keys, the
`global_targets` test collapses to plain index membership. -/
theorem cntMemOr_eq_cntMem (ls K I : List String) (hsub : ∀ k ∈ K, k ∈ I) :
    cntMemOr ls K I = cntMem ls I := by
  refine congrArg List.length (List.filter_congr fun l _ => ?_)
  by_cases hK : l ∈ K
  · have hI : l ∈ I := hsub l hK
    simp [hK, hI]
  · simp [hK]

theorem cntMem_add_cntNot (ls I : List String) :
    cntMem ls I + (ls.filter (fun l => !(I.contains l))).length = ls.length := by
  induction ls with
  | nil => rfl
  | cons l ls ih =>
    rw [cntMem_cons, List.length_cons]
    by_cases h : l ∈ I
    · have hb : (!(I.contains l)) = false := by simp [h]
      rw [if_pos h, List.filter_cons]
      simp only [hb, Bool.false_eq_true, if_false]
      omega
    · have hb : (!(I.contains l)) = true := by simp [h]
      rw [if_neg h, List.filter_cons]
      simp only [hb, if_true, List.length_cons]
      omega

theorem length_sub_cntMem (ls I : List String) :
    ls.length - cntMem ls I = (ls.filter (fun l => !(I.contains l))).length := by
  have h := cntMem_add_cntNot ls I
  omega

theorem word_count_eq (matcher : String → String → Option Int) (f : StatsFilter)
    (index : NoteIndex) (hnd : (indexKeys index).Nodup) :
    (EnvironmentStats.new_with_filters matcher index f).word_count_total
      = ((filterIndex matcher f index).map (fun e => e.2.2.words)).sum := by
  simp only [EnvironmentStats.new_with_filters]
  rw [pass2_eq matcher f index hnd, List.map_map]
  rfl

theorem char_count_eq (matcher : String → String → Option Int) (f : StatsFilter)
    (index : NoteIndex) (hnd : (indexKeys index).Nodup) :
    (EnvironmentStats.new_with_filters matcher index f).char_count_total
      = ((filterIndex matcher f index).map (fun e => e.2.2.characters)).sum := by
  simp only [EnvironmentStats.new_with_filters]
  rw [pass2_eq matcher f index hnd, List.map_map]
  rfl

theorem note_count_eq (matcher : String → String → Option Int) (f : StatsFilter)
    (index : NoteIndex) (hnd : (indexKeys index).Nodup) :
    (EnvironmentStats.new_with_filters matcher index f).note_count_total
      = (filterIndex matcher f index).length := by
  simp only [EnvironmentStats.new_with_filters]
  rw [pass2_eq matcher f index hnd, List.length_map]

theorem tag_count_eq (matcher : String → String → Option Int) (f : StatsFilter)
    (index : NoteIndex) (hnd : (indexKeys index).Nodup) :
    (EnvironmentStats.new_with_filters matcher index f).tag_count_total
      = (((filterIndex matcher f index).map (fun e => e.2.2.tags)).flatten).dedup.length := by
  simp only [EnvironmentStats.new_with_filters]
  rw [pass2_eq matcher f index hnd, List.map_map]
  rfl

theorem local_local_eq (matcher : String → String → Option Int) (f : StatsFilter)
    (index : NoteIndex) (hnd : (indexKeys index).Nodup) :
    (EnvironmentStats.new_with_filters matcher index f).local_local_links
      = ((filterIndex matcher f index).map
          (fun e => cntMem e.2.2.links (envKeys matcher f index))).sum := by
  simp only [EnvironmentStats.new_with_filters]
  rw [pass2_eq matcher f index hnd, List.map_map]
  refine congrArg List.sum (List.map_congr_left fun e he => ?_)
  have hent := filterIndex_entry he hnd
  have hfields := accumStats_fields index (envKeys matcher f index) (indexKeys index)
    e.1 e.2.1
  show (accumStats index (envKeys matcher f index) (indexKeys index) e.1 e.2.1).outlinks_local
    = cntMem e.2.2.links (envKeys matcher f index)
  rw [hfields.2.2.2.2.1, hent.2]
  have hzero : e.2.1.outlinks_local = 0 := by rw [hent.1]; rfl
  rw [hzero, Nat.zero_add]

theorem local_global_eq (matcher : String → String → Option Int) (f : StatsFilter)
    (index : NoteIndex) (hnd : (indexKeys index).Nodup) :
    (EnvironmentStats.new_with_filters matcher index f).local_global_links
      = ((filterIndex matcher f index).map
          (fun e => cntMemOr e.2.2.links (envKeys matcher f index) (indexKeys index))).sum := by
  simp only [EnvironmentStats.new_with_filters]
  rw [pass2_eq matcher f index hnd, List.map_map]
  refine congrArg List.sum (List.map_congr_left fun e he => ?_)
  have hent := filterIndex_entry he hnd
  have hfields := accumStats_fields index (envKeys matcher f index) (indexKeys index)
    e.1 e.2.1
  show (accumStats index (envKeys matcher f index) (indexKeys index) e.1 e.2.1).outlinks_global
    = cntMemOr e.2.2.links (envKeys matcher f index) (indexKeys index)
  rw [hfields.2.2.2.2.2.1, hent.2]
  have hzero : e.2.1.outlinks_global = 0 := by rw [hent.1]; rfl
  rw [hzero, Nat.zero_add]

theorem broken_links_eq (matcher : String → String → Option Int) (f : StatsFilter)
    (index : NoteIndex) (hnd : (indexKeys index).Nodup) :
    (EnvironmentStats.new_with_filters matcher index f).broken_links
      = ((filterIndex matcher f index).map
          (fun e => e.2.2.links.length
            - cntMemOr e.2.2.links (envKeys matcher f index) (indexKeys index))).sum := by
  simp only [EnvironmentStats.new_with_filters]
  rw [pass2_eq matcher f index hnd, List.map_map]
  refine congrArg List.sum (List.map_congr_left fun e he => ?_)
  have hent := filterIndex_entry he hnd
  have hfields := accumStats_fields index (envKeys matcher f index) (indexKeys index)
    e.1 e.2.1
  show (accumStats index (envKeys matcher f index) (indexKeys index) e.1 e.2.1).broken_links
    = e.2.2.links.length
      - cntMemOr e.2.2.links (envKeys matcher f index) (indexKeys index)
  rw [hfields.2.2.2.2.2.2, hent.2]

theorem global_local_eq (matcher : String → String → Option Int) (f : StatsFilter)
    (index : NoteIndex) (hnd : (indexKeys index).Nodup) :
    (EnvironmentStats.new_with_filters matcher index f).global_local_links
      = ((filterIndex matcher f index).map
          (fun e => (index.map (fun p => cntEq p.2.links e.1)).sum)).sum := by
  simp only [EnvironmentStats.new_with_filters]
  rw [pass2_eq matcher f index hnd, List.map_map]
  refine congrArg List.sum (List.map_congr_left fun e he => ?_)
  have hent := filterIndex_entry he hnd
  have hfields := accumStats_fields index (envKeys matcher f index) (indexKeys index)
    e.1 e.2.1
  show (accumStats index (envKeys matcher f index) (indexKeys index) e.1 e.2.1).inlinks_global
    = (index.map (fun p => cntEq p.2.links e.1)).sum
  rw [hfields.2.2.1]
  have hzero : e.2.1.inlinks_global = 0 := by rw [hent.1]; rfl
  rw [hzero, Nat.zero_add]

/-- Sums of a per-note statistics field over `filtered_stats` coincide with
the corresponding sums over the pass-2 environment (sorting is a
permutation). -/
theorem sum_stats_field (matcher : String → String → Option Int) (index : NoteIndex)
    (f : StatsFilter) (g : NoteEnvStatistics → Nat) :
    (((EnvironmentStats.new_with_filters matcher index f).filtered_stats).map g).sum
      = ((pass2 index (filterIndex matcher f index)).map (fun e => g e.2.1)).sum := by
  have h := (filtered_stats_perm matcher index f).map g
  rw [h.sum_eq, List.map_map]
  rfl

theorem sum_inlinks_local_eq (matcher : String → String → Option Int) (f : StatsFilter)
    (index : NoteIndex) (hnd : (indexKeys index).Nodup) :
    (((EnvironmentStats.new_with_filters matcher index f).filtered_stats).map
        (fun s => s.inlinks_local)).sum
      = ((filterIndex matcher f index).map (fun e =>
          (index.map (fun p =>
            if (envKeys matcher f index).contains p.1 then cntEq p.2.links e.1 else 0)).sum)).sum := by
  rw [sum_stats_field, pass2_eq matcher f index hnd, List.map_map]
  refine congrArg List.sum (List.map_congr_left fun e he => ?_)
  have hent := filterIndex_entry he hnd
  have hfields := accumStats_fields index (envKeys matcher f index) (indexKeys index)
    e.1 e.2.1
  show (accumStats index (envKeys matcher f index) (indexKeys index) e.1 e.2.1).inlinks_local
    = _
  rw [hfields.2.2.2.1]
  have hzero : e.2.1.inlinks_local = 0 := by rw [hent.1]; rfl
  rw [hzero, Nat.zero_add]

/-! ### Concrete inputs used by individual claims -/

/-- A matcher that scores an empty title query and rejects any other; a
conforming instantiation of §6's fuzzy scorer contract (empty pattern always
matches). -/
def titleMatcher : String → String → Option Int :=
  fun _ title => if title = "" then some 1 else none

/-- A note tagged `#os/win`, as in the repository's own test corpus. -/
def winNote : Note :=
  { name := "windows", tags := ["#os/win"], links := [], words := 0, characters := 0 }

/-- The canonical filter of §4.2 selecting everything under tag `#os`. -/
def hierFilter : Filter :=
  { any := false, tags := [("#os", true)], links := [], title := "" }

/-- The same query expressed in the competing filter shape that
`EnvironmentStats::new_with_filters` actually takes. -/
def statsHierFilter : StatsFilter :=
  { all_tags := true, tags := ["#os"], title := "" }

/-- A matcher rejecting the note named `d` and scoring everything else 1;
a conforming instantiation of §6's deterministic fuzzy scorer. -/
def linkMatcher : String → String → Option Int :=
  fun name _ => if name = "d" then none else some 1

/-- Environment note with five outgoing links: two into the environment
(`b`, `c`), one to the existing non-environment note `d`, and two dangling
targets (`x`, `y`). -/
def noteA : Note :=
  { name := "a", tags := ["#t/u"], links := ["b", "c", "d", "x", "y"],
    words := 1, characters := 10 }

def noteB : Note :=
  { name := "b", tags := ["#t"], links := ["a"], words := 2, characters := 20 }

def noteC : Note :=
  { name := "c", tags := [], links := [], words := 3, characters := 30 }

def noteD : Note :=
  { name := "d", tags := [], links := ["a"], words := 4, characters := 40 }

/-- A four-note index whose environment under `linkMatcher` is `{a, b, c}`. -/
def linkIdx : NoteIndex :=
  [("a", noteA), ("b", noteB), ("c", noteC), ("d", noteD)]

/-- The same index in a different order, standing in for another hash-map
iteration order of the same map. -/
def linkIdxPerm : NoteIndex :=
  [("b", noteB), ("a", noteA), ("c", noteC), ("d", noteD)]

/-- The all-pass statistics filter: no tag predicates, empty title query. -/
def allF : StatsFilter := { all_tags := false, tags := [], title := "" }

/-- The statistics entry computed for note `a` in the `linkIdx` scenario. -/
def statsA : NoteEnvStatistics :=
  { id := "a", match_score := 1, inlinks_global := 2, inlinks_local := 1,
    outlinks_local := 2, outlinks_global := 3, broken_links := 2 }

/-! ### Claim theorems: the filter engine -/

/-- C1 (code bug): the membership pass of `EnvironmentStats::new_with_filters`
does not agree with `Filter::apply`.  On an index holding only a note tagged
`#os/win` and the tag query `#os` (ALL mode, empty title), `Filter::apply`
accepts the note through the hierarchical ancestor match, while
`new_with_filters` — which takes the second `Filter` type of
`note_statistics.rs` and tests exact tag containment only — produces an empty
environment. -/
theorem claimC1_divergence :
    Filter.apply titleMatcher hierFilter winNote = some 1 ∧
    (EnvironmentStats.new_with_filters titleMatcher
        [("windows", winNote)] statsHierFilter).note_count_total = 0 ∧
    (EnvironmentStats.new_with_filters titleMatcher
        [("windows", winNote)] statsHierFilter).filtered_stats = [] := by
  decide

/-- C2: inside `Filter::apply`, a tag predicate `(p, wanted := true)` is
satisfied exactly when `p` equals some tag of the note or is a proper
ancestor path of one (a prefix ending at a `/` boundary), and
`(p, wanted := false)` is satisfied exactly when no tag of the note
equals or extends `p` in this sense. -/
theorem claimC2_tag_predicate (note : Note) (p : String) :
    (tagExpectationMet p true note.tags = true ↔
      ∃ t ∈ note.tags, t = p ∨ ∃ rest : String, t = p ++ "/" ++ rest) ∧
    (tagExpectationMet p false note.tags = true ↔
      ¬ ∃ t ∈ note.tags, t = p ∨ ∃ rest : String, t = p ++ "/" ++ rest) := by
  unfold tagExpectationMet
  rw [← tagConditionHolds_iff]
  constructor
  · simp
  · simp

/-- C3: the gating step of `Filter::apply`.  With no tag and no link
predicates the note goes straight to title scoring; otherwise in ALL mode
(`any = false`) the note is rejected unless every predicate's expectation is
met, and in ANY mode it is rejected unless at least one is. -/
theorem claimC3_gating (matcher : String → String → Option Int)
    (f : Filter) (note : Note) :
    (f.tags = [] ∧ f.links = [] →
      Filter.apply matcher f note = matcher note.name f.title) ∧
    (¬(f.tags = [] ∧ f.links = []) →
      (f.any = false →
        (allPredicatesMet f note →
          Filter.apply matcher f note = matcher note.name f.title) ∧
        (¬ allPredicatesMet f note → Filter.apply matcher f note = none)) ∧
      (f.any = true →
        (anyPredicateMet f note →
          Filter.apply matcher f note = matcher note.name f.title) ∧
        (¬ anyPredicateMet f note → Filter.apply matcher f note = none))) := by
  have hall : ((f.tags.map (fun pr => tagExpectationMet pr.1 pr.2 note.tags)
        ++ f.links.map (fun pr => linkExpectationMet pr.1 pr.2 note.links)).all
          (fun b => b) = true) ↔ allPredicatesMet f note := by
    simp [allPredicatesMet, List.all_append]
  have hany : ((f.tags.map (fun pr => tagExpectationMet pr.1 pr.2 note.tags)
        ++ f.links.map (fun pr => linkExpectationMet pr.1 pr.2 note.links)).any
          (fun b => b) = true) ↔ anyPredicateMet f note := by
    simp [anyPredicateMet, List.any_append]
  refine ⟨fun hempty => ?_, fun hne => ⟨fun hmode => ⟨fun hmet => ?_, fun hmet => ?_⟩,
    fun hmode => ⟨fun hmet => ?_, fun hmet => ?_⟩⟩⟩ <;>
    rw [Filter.apply]
  · simp [hempty.1, hempty.2]
  · rw [← hall] at hmet
    simp [hmode, hmet]
  · rw [← hall] at hmet
    rw [Bool.not_eq_true] at hmet
    have hne' : (f.tags.isEmpty && f.links.isEmpty) = false := by
      cases htags : f.tags.isEmpty <;> cases hlinks : f.links.isEmpty <;>
        simp_all [List.isEmpty_iff]
    simp [hmode, hmet, hne']
  · rw [← hany] at hmet
    simp [hmode, hmet]
  · rw [← hany] at hmet
    rw [Bool.not_eq_true] at hmet
    have hne' : (f.tags.isEmpty && f.links.isEmpty) = false := by
      cases htags : f.tags.isEmpty <;> cases hlinks : f.links.isEmpty <;>
        simp_all [List.isEmpty_iff]
    simp [hmode, hmet, hne']

/-- C3 witness: on a concrete filter with one tag predicate, in ALL mode, a
note meeting the predicate's expectation proceeds to title scoring. -/
theorem claimC3_gating_witness :
    Filter.apply titleMatcher hierFilter winNote = titleMatcher winNote.name hierFilter.title :=
  ((claimC3_gating titleMatcher hierFilter winNote).2 (by decide) |>.1 rfl).1 (by decide)

/-- C4 (amended): parsing `"!#lietheo #diffgeo >Manifold !>atlas"` in ALL mode
yields the tag predicates `[("#lietheo", false), ("#diffgeo", true)]` — the
hash mark is kept, only the `!` is stripped — the link predicates
`[("manifold", true), ("atlas", false)]`, and an empty title query. -/
theorem claimC4_parse :
    (Filter.new "!#lietheo #diffgeo >Manifold !>atlas" false).tags
        = [("#lietheo", false), ("#diffgeo", true)] ∧
    (Filter.new "!#lietheo #diffgeo >Manifold !>atlas" false).links
        = [("manifold", true), ("atlas", false)] ∧
    (Filter.new "!#lietheo #diffgeo >Manifold !>atlas" false).title = "" := by
  decide

/-- C4, counterexample to the claim as stated: the tag predicates produced for
this query are not `[("lietheo", false), ("diffgeo", true)]` (the leading hash
mark is kept by `Filter::new`). -/
theorem claimC4_counterexample :
    (Filter.new "!#lietheo #diffgeo >Manifold !>atlas" false).tags
      ≠ [("lietheo", false), ("diffgeo", true)] := by
  decide

/-- C5: every whitespace-separated token that no prefix rule captures is
appended to the title query with no separator, so the title query is the
separator-free concatenation of the plain tokens; in particular parsing
`"foo bar"` yields the title query `"foobar"`. -/
theorem claimC5_title_concat :
    (∀ (s : String) (any : Bool),
        (Filter.new s any).title = joinAll ((splitWhitespace s).filter isPlainWord)) ∧
    (Filter.new "foo bar" false).title = "foobar" := by
  refine ⟨fun s any => ?_, by decide⟩
  show ((splitWhitespace s).foldl filterStep ([], [], "")).2.2 = _
  rw [foldl_filterStep_title]
  simp

/-- C8: `new_with_filters` on the empty index returns the all-zero statistics
with an empty `filtered_stats` list, for every filter and matcher (the
function is total, so no error can be raised). -/
theorem claimC8_empty_index (matcher : String → String → Option Int)
    (f : StatsFilter) :
    EnvironmentStats.new_with_filters matcher [] f =
      { word_count_total := 0, char_count_total := 0, note_count_total := 0,
        tag_count_total := 0, local_local_links := 0, local_global_links := 0,
        global_local_links := 0, filtered_stats := [], broken_links := 0 } := by
  simp [EnvironmentStats.new_with_filters, filterIndex, pass2, sortByScore]

/-- C6: for every environment note of `new_with_filters` (on an index with no
duplicate ids), `outlinks_local` counts its outgoing links landing in the
environment, `outlinks_global` counts those landing anywhere in the index,
and `broken_links` counts those whose target id is absent from the index; and
the aggregate `broken_links` is the total count of dangling links over
environment notes. -/
theorem claimC6_outlink_counts (matcher : String → String → Option Int)
    (index : NoteIndex) (f : StatsFilter) (hnd : (indexKeys index).Nodup) :
    (∀ s ∈ (EnvironmentStats.new_with_filters matcher index f).filtered_stats,
      ∀ note : Note, index.lookup s.id = some note →
        s.outlinks_local = cntMem note.links (envKeys matcher f index) ∧
        s.outlinks_global = cntMem note.links (indexKeys index) ∧
        s.broken_links
          = (note.links.filter (fun l => !((indexKeys index).contains l))).length) ∧
    (EnvironmentStats.new_with_filters matcher index f).broken_links
      = ((filterIndex matcher f index).map (fun e =>
          (e.2.2.links.filter (fun l => !((indexKeys index).contains l))).length)).sum := by
  have hsub := envKeys_subset matcher f index
  constructor
  · intro s hs note hnote
    have hs2 : s ∈ (pass2 index (filterIndex matcher f index)).map (fun e => e.2.1) :=
      ((filtered_stats_perm matcher index f).mem_iff).mp hs
    rw [pass2_eq matcher f index hnd, List.map_map] at hs2
    obtain ⟨e, he, hse⟩ := List.mem_map.mp hs2
    simp only [Function.comp_apply] at hse
    have hent := filterIndex_entry he hnd
    have hfields := accumStats_fields index (envKeys matcher f index) (indexKeys index)
      e.1 e.2.1
    have hsid : s.id = e.1 := by
      rw [← hse, hfields.1, hent.1]
      rfl
    have hnote2 : note = e.2.2 := by
      rw [hsid] at hnote
      rw [hnote] at hent
      exact Option.some.inj hent.2
    subst hnote2
    refine ⟨?_, ?_, ?_⟩
    · rw [← hse, hfields.2.2.2.2.1, hent.2,
        show e.2.1.outlinks_local = 0 from by rw [hent.1]; rfl, Nat.zero_add]
    · rw [← hse, hfields.2.2.2.2.2.1, hent.2,
        show e.2.1.outlinks_global = 0 from by rw [hent.1]; rfl, Nat.zero_add]
      exact cntMemOr_eq_cntMem _ _ _ hsub
    · rw [← hse, hfields.2.2.2.2.2.2, hent.2]
      show e.2.2.links.length
          - cntMemOr e.2.2.links (envKeys matcher f index) (indexKeys index) = _
      rw [cntMemOr_eq_cntMem _ _ _ hsub, length_sub_cntMem]
  · rw [broken_links_eq matcher f index hnd]
    refine congrArg List.sum (List.map_congr_left fun e he => ?_)
    rw [cntMemOr_eq_cntMem _ _ _ hsub, length_sub_cntMem]

/-- C6 witness: in the four-note scenario, note `a` — five outgoing links, two
into the environment, one to the existing non-environment note, two dangling —
gets `outlinks_local` equal to its environment-targeted link count (2),
`outlinks_global` equal to its index-targeted link count (3), and
`broken_links` equal to its dangling link count (2). -/
theorem claimC6_outlink_counts_witness :
    statsA.outlinks_local = cntMem noteA.links (envKeys linkMatcher allF linkIdx) ∧
    statsA.outlinks_global = cntMem noteA.links (indexKeys linkIdx) ∧
    statsA.broken_links
      = (noteA.links.filter (fun l => !((indexKeys linkIdx).contains l))).length :=
  (claimC6_outlink_counts linkMatcher linkIdx allF (by decide)).1 statsA (by decide)
    noteA (by decide)

/-- C7: the aggregates satisfy `local_local_links ≤ local_global_links ≤`
(sum of the outgoing-link counts of the environment notes), and
`global_local_links ≥ local_local_links`. -/
theorem claimC7_link_bounds (matcher : String → String → Option Int)
    (index : NoteIndex) (f : StatsFilter) (hnd : (indexKeys index).Nodup) :
    (EnvironmentStats.new_with_filters matcher index f).local_local_links
        ≤ (EnvironmentStats.new_with_filters matcher index f).local_global_links ∧
    (EnvironmentStats.new_with_filters matcher index f).local_global_links
        ≤ ((filterIndex matcher f index).map (fun e => e.2.2.links.length)).sum ∧
    (EnvironmentStats.new_with_filters matcher index f).local_local_links
        ≤ (EnvironmentStats.new_with_filters matcher index f).global_local_links := by
  refine ⟨?_, ?_, ?_⟩
  · rw [local_local_eq matcher f index hnd, local_global_eq matcher f index hnd]
    exact List.sum_le_sum fun e _ => cntMem_le_cntMemOr _ _ _
  · rw [local_global_eq matcher f index hnd]
    exact List.sum_le_sum fun e _ => cntMemOr_le_length _ _ _
  · rw [local_local_eq matcher f index hnd, global_local_eq matcher f index hnd,
      ← sum_inlinks_exchange matcher f index hnd]
    refine List.sum_le_sum fun e _ => List.sum_le_sum fun p _ => ?_
    by_cases hc : (envKeys matcher f index).contains p.1
    · rw [if_pos hc]
    · rw [if_neg hc]
      exact Nat.zero_le _

/-- C7 witness: the three inequalities at the four-note scenario. -/
theorem claimC7_link_bounds_witness :
    (EnvironmentStats.new_with_filters linkMatcher linkIdx allF).local_local_links
        ≤ (EnvironmentStats.new_with_filters linkMatcher linkIdx allF).local_global_links ∧
    (EnvironmentStats.new_with_filters linkMatcher linkIdx allF).local_global_links
        ≤ ((filterIndex linkMatcher allF linkIdx).map (fun e => e.2.2.links.length)).sum ∧
    (EnvironmentStats.new_with_filters linkMatcher linkIdx allF).local_local_links
        ≤ (EnvironmentStats.new_with_filters linkMatcher linkIdx allF).global_local_links :=
  claimC7_link_bounds linkMatcher linkIdx allF (by decide)

/-- C10: over the entries of `filtered_stats`, the sum of `inlinks_local`
equals the sum of `outlinks_local` — both count the links with source and
target in the environment — and that common value is the aggregate
`local_local_links`. -/
theorem claimC10_inout_balance (matcher : String → String → Option Int)
    (index : NoteIndex) (f : StatsFilter) (hnd : (indexKeys index).Nodup) :
    (((EnvironmentStats.new_with_filters matcher index f).filtered_stats).map
        (fun s => s.inlinks_local)).sum
      = (((EnvironmentStats.new_with_filters matcher index f).filtered_stats).map
          (fun s => s.outlinks_local)).sum ∧
    (((EnvironmentStats.new_with_filters matcher index f).filtered_stats).map
        (fun s => s.outlinks_local)).sum
      = (EnvironmentStats.new_with_filters matcher index f).local_local_links := by
  have hout : (((EnvironmentStats.new_with_filters matcher index f).filtered_stats).map
      (fun s => s.outlinks_local)).sum
      = (EnvironmentStats.new_with_filters matcher index f).local_local_links := by
    rw [sum_stats_field]
    rfl
  refine ⟨?_, hout⟩
  rw [sum_inlinks_local_eq matcher f index hnd, sum_inlinks_exchange matcher f index hnd,
    ← local_local_eq matcher f index hnd, ← hout]

/-- C10 witness: the balance at the four-note scenario. -/
theorem claimC10_inout_balance_witness :
    (((EnvironmentStats.new_with_filters linkMatcher linkIdx allF).filtered_stats).map
        (fun s => s.inlinks_local)).sum
      = (((EnvironmentStats.new_with_filters linkMatcher linkIdx allF).filtered_stats).map
          (fun s => s.outlinks_local)).sum ∧
    (((EnvironmentStats.new_with_filters linkMatcher linkIdx allF).filtered_stats).map
        (fun s => s.outlinks_local)).sum
      = (EnvironmentStats.new_with_filters linkMatcher linkIdx allF).local_local_links :=
  claimC10_inout_balance linkMatcher linkIdx allF (by decide)

theorem perm_contains {l1 l2 : List String} (h : l1.Perm l2) (a : String) :
    l1.contains a = l2.contains a := by
  by_cases hm : a ∈ l1
  · have hm2 : a ∈ l2 := h.mem_iff.mp hm
    simp [hm, hm2]
  · have hm2 : a ∉ l2 := fun h2 => hm (h.mem_iff.mpr h2)
    simp [hm, hm2]

/-- C9: the eight aggregates of `new_with_filters` are independent of the
iteration order of the index: two runs over permuted copies of the same map
(no duplicate ids) produce identical totals. -/
theorem claimC9_determinism (matcher : String → String → Option Int) (f : StatsFilter)
    (index index' : NoteIndex) (hperm : index.Perm index')
    (hnd : (indexKeys index).Nodup) :
    (EnvironmentStats.new_with_filters matcher index f).word_count_total
        = (EnvironmentStats.new_with_filters matcher index' f).word_count_total ∧
    (EnvironmentStats.new_with_filters matcher index f).char_count_total
        = (EnvironmentStats.new_with_filters matcher index' f).char_count_total ∧
    (EnvironmentStats.new_with_filters matcher index f).note_count_total
        = (EnvironmentStats.new_with_filters matcher index' f).note_count_total ∧
    (EnvironmentStats.new_with_filters matcher index f).tag_count_total
        = (EnvironmentStats.new_with_filters matcher index' f).tag_count_total ∧
    (EnvironmentStats.new_with_filters matcher index f).local_local_links
        = (EnvironmentStats.new_with_filters matcher index' f).local_local_links ∧
    (EnvironmentStats.new_with_filters matcher index f).local_global_links
        = (EnvironmentStats.new_with_filters matcher index' f).local_global_links ∧
    (EnvironmentStats.new_with_filters matcher index f).global_local_links
        = (EnvironmentStats.new_with_filters matcher index' f).global_local_links ∧
    (EnvironmentStats.new_with_filters matcher index f).broken_links
        = (EnvironmentStats.new_with_filters matcher index' f).broken_links := by
  have hI : (indexKeys index).Perm (indexKeys index') :=
    List.Perm.map (fun p : String × Note => p.1) hperm
  have hnd' : (indexKeys index').Nodup := hI.nodup_iff.mp hnd
  have hpf : (filterIndex matcher f index).Perm (filterIndex matcher f index') :=
    hperm.filterMap _
  have hK : (envKeys matcher f index).Perm (envKeys matcher f index') :=
    List.Perm.map (fun e : String × (NoteEnvStatistics × Note) => e.1) hpf
  have hcntMem : ∀ ls, cntMem ls (envKeys matcher f index)
      = cntMem ls (envKeys matcher f index') := fun ls =>
    congrArg List.length (List.filter_congr fun l _ => perm_contains hK l)
  have hcntOr : ∀ ls, cntMemOr ls (envKeys matcher f index) (indexKeys index)
      = cntMemOr ls (envKeys matcher f index') (indexKeys index') := fun ls =>
    congrArg List.length (List.filter_congr fun l _ => by
      rw [perm_contains hK l, perm_contains hI l])
  refine ⟨?_, ?_, ?_, ?_, ?_, ?_, ?_, ?_⟩
  · rw [word_count_eq matcher f index hnd, word_count_eq matcher f index' hnd']
    exact (hpf.map _).sum_eq
  · rw [char_count_eq matcher f index hnd, char_count_eq matcher f index' hnd']
    exact (hpf.map _).sum_eq
  · rw [note_count_eq matcher f index hnd, note_count_eq matcher f index' hnd']
    exact hpf.length_eq
  · rw [tag_count_eq matcher f index hnd, tag_count_eq matcher f index' hnd']
    exact ((List.Perm.flatten (hpf.map (fun e => e.2.2.tags))).dedup).length_eq
  · rw [local_local_eq matcher f index hnd, local_local_eq matcher f index' hnd']
    exact ((hpf.map (fun e => cntMem e.2.2.links (envKeys matcher f index))).sum_eq).trans
      (congrArg List.sum (List.map_congr_left fun e _ => hcntMem _))
  · rw [local_global_eq matcher f index hnd, local_global_eq matcher f index' hnd']
    exact ((hpf.map (fun e => cntMemOr e.2.2.links (envKeys matcher f index)
        (indexKeys index))).sum_eq).trans
      (congrArg List.sum (List.map_congr_left fun e _ => hcntOr _))
  · rw [global_local_eq matcher f index hnd, global_local_eq matcher f index' hnd']
    exact ((hpf.map (fun e => (index.map (fun p => cntEq p.2.links e.1)).sum)).sum_eq).trans
      (congrArg List.sum (List.map_congr_left fun e _ =>
        (hperm.map (fun p => cntEq p.2.links e.1)).sum_eq))
  · rw [broken_links_eq matcher f index hnd, broken_links_eq matcher f index' hnd']
    exact ((hpf.map (fun e => e.2.2.links.length - cntMemOr e.2.2.links
        (envKeys matcher f index) (indexKeys index))).sum_eq).trans
      (congrArg List.sum (List.map_congr_left fun e _ => by rw [hcntOr]))

/-- C9 witness: the aggregate equalities between the four-note index and a
reordering of it. -/
theorem claimC9_determinism_witness :
    (EnvironmentStats.new_with_filters linkMatcher linkIdx allF).word_count_total
        = (EnvironmentStats.new_with_filters linkMatcher linkIdxPerm allF).word_count_total ∧
    (EnvironmentStats.new_with_filters linkMatcher linkIdx allF).char_count_total
        = (EnvironmentStats.new_with_filters linkMatcher linkIdxPerm allF).char_count_total ∧
    (EnvironmentStats.new_with_filters linkMatcher linkIdx allF).note_count_total
        = (EnvironmentStats.new_with_filters linkMatcher linkIdxPerm allF).note_count_total ∧
    (EnvironmentStats.new_with_filters linkMatcher linkIdx allF).tag_count_total
        = (EnvironmentStats.new_with_filters linkMatcher linkIdxPerm allF).tag_count_total ∧
    (EnvironmentStats.new_with_filters linkMatcher linkIdx allF).local_local_links
        = (EnvironmentStats.new_with_filters linkMatcher linkIdxPerm allF).local_local_links ∧
    (EnvironmentStats.new_with_filters linkMatcher linkIdx allF).local_global_links
        = (EnvironmentStats.new_with_filters linkMatcher linkIdxPerm allF).local_global_links ∧
    (EnvironmentStats.new_with_filters linkMatcher linkIdx allF).global_local_links
        = (EnvironmentStats.new_with_filters linkMatcher linkIdxPerm allF).global_local_links ∧
    (EnvironmentStats.new_with_filters linkMatcher linkIdx allF).broken_links
        = (EnvironmentStats.new_with_filters linkMatcher linkIdxPerm allF).broken_links :=
  claimC9_determinism linkMatcher allF linkIdx linkIdxPerm (by decide) (by decide)

end Giraffe
